import Mathlib

/-!
Verification of the `bimap` Go package (a concurrency-safe bidirectional map).

The Go `BiMap[T, U]` holds two hash maps, `front : map[T]U` and
`back : map[U]T`, guarded by one reader-writer lock.  Every public
operation takes the lock, performs a sequential map manipulation and
releases the lock, so each operation is a pure function on the pair of
maps; we embed the maps as association lists with Go `map` semantics
(lookup, overwriting insert, delete) and each exported method of
`bimap.go` as a Lean function on a `BiMap` record.

Go's two-result read `v, ok := m[k]` yields the value-type's zero value
when the key is absent; we render the zero value as `Inhabited.default`.
-/

set_option linter.unusedSectionVars false

namespace BiMapSpec

variable {α β : Type} [DecidableEq α] [DecidableEq β]

/-- Lookup in a Go map rendered as an association list: the value bound to
`a`, if any. -/
def mapLookup : List (α × β) → α → Option β
  | [], _ => none
  | (x, y) :: t, a => if a = x then some y else mapLookup t a

/-- Go `m[a] = b`: overwrite the binding of `a` if present, otherwise add the
pair. -/
def mapInsert : List (α × β) → α → β → List (α × β)
  | [], a, b => [(a, b)]
  | (x, y) :: t, a, b => if a = x then (a, b) :: t else (x, y) :: mapInsert t a b

/-- Go `delete(m, a)`: remove the binding of `a` if present. -/
def mapErase : List (α × β) → α → List (α × β)
  | [], _ => []
  | (x, y) :: t, a => if a = x then t else (x, y) :: mapErase t a

/-- The keys of an association list. -/
def keys (l : List (α × β)) : List α := l.map Prod.fst

/-- The state of `BiMap[T, U]` from `bimap.go`: the two containers guarded by
the lock (the lock itself has no sequential content). -/
structure BiMap (α β : Type) where
  front : List (α × β)
  back : List (β × α)
deriving DecidableEq

/-- `ErrKeyValExists`, the only error value of the package. -/
inductive BiMapErr : Type where
  | errKeyValExists : BiMapErr
deriving DecidableEq

/-- The `option[T, U]` interface: its only implementation is
`initialOption` (the map passed to `WithInitialMap`). -/
inductive BMOption (α β : Type) : Type where
  | initialOption : List (α × β) → BMOption α β

/-- `initialOption.apply`: copy each pair of the initial map into both
containers, with no collision checking. -/
def applyOption (m : BiMap α β) : BMOption α β → BiMap α β
  | .initialOption io =>
      io.foldl
        (fun m p => { front := mapInsert m.front p.1 p.2,
                      back := mapInsert m.back p.2 p.1 }) m

/-- `WithInitialMap`: wrap an initial map as an option. -/
def WithInitialMap (l : List (α × β)) : BMOption α β := .initialOption l

/-- `New`: the source declares the variadic options parameter without a name
(`func New[T, U comparable](...option[T, U])`) and never applies it, so the
returned map is empty whatever options are passed. -/
def New (_opts : List (BMOption α β)) : BiMap α β :=
  { front := [], back := [] }

/-- `GetFront`: `v, ok := m.front[key]`. -/
def getFront [Inhabited β] (m : BiMap α β) (key : α) : β × Bool :=
  match mapLookup m.front key with
  | some v => (v, true)
  | none => (default, false)

/-- `GetBack`: `v, ok := m.back[key]`. -/
def getBack [Inhabited α] (m : BiMap α β) (key : β) : α × Bool :=
  match mapLookup m.back key with
  | some v => (v, true)
  | none => (default, false)

/-- `SetFront`: reject when `key` is in `front` or, failing that, `val` is in
`back` (the Go code short-circuits exactly this way); otherwise add the pair
to both containers.  Returns the updated map and the returned `error`. -/
def setFront (m : BiMap α β) (key : α) (val : β) : BiMap α β × Option BiMapErr :=
  if (mapLookup m.front key).isSome || (mapLookup m.back val).isSome then
    (m, some .errKeyValExists)
  else
    ({ front := mapInsert m.front key val, back := mapInsert m.back val key }, none)

/-- `SetBack`: the mirror image of `SetFront`. -/
def setBack (m : BiMap α β) (key : β) (val : α) : BiMap α β × Option BiMapErr :=
  if (mapLookup m.back key).isSome || (mapLookup m.front val).isSome then
    (m, some .errKeyValExists)
  else
    ({ front := mapInsert m.front val key, back := mapInsert m.back key val }, none)

/-- `DeleteFront`: look `key` up in `front`; if absent return unchanged, else
delete `key` from `front` and its paired value from `back`. -/
def deleteFront (m : BiMap α β) (key : α) : BiMap α β :=
  match mapLookup m.front key with
  | none => m
  | some v => { front := mapErase m.front key, back := mapErase m.back v }

/-- `DeleteBack`: the mirror image of `DeleteFront`. -/
def deleteBack (m : BiMap α β) (key : β) : BiMap α β :=
  match mapLookup m.back key with
  | none => m
  | some v => { front := mapErase m.front v, back := mapErase m.back key }

/-- `Front`: copy the forward container pair by pair into a freshly made
map. -/
def Front (m : BiMap α β) : List (α × β) :=
  m.front.foldl (fun nm p => mapInsert nm p.1 p.2) []

/-- `Back`: copy the reverse container pair by pair into a freshly made
map. -/
def Back (m : BiMap α β) : List (β × α) :=
  m.back.foldl (fun nm p => mapInsert nm p.1 p.2) []

/-- `Len`: `len(m.front)`. -/
def lenBM (m : BiMap α β) : Nat := m.front.length

/-- `fmt.Sprintf("%v:%v", f, b)` for one pair. -/
def renderPair [ToString α] [ToString β] (p : α × β) : String :=
  toString p.1 ++ ":" ++ toString p.2

/-- `String`: collect the rendered pairs of `front` in iteration order, join
them with single spaces and wrap the result in `map[`…`]`. -/
def stringBM [ToString α] [ToString β] (m : BiMap α β) : String :=
  "map[" ++ String.intercalate " " (m.front.foldl (fun ps p => ps ++ [renderPair p]) []) ++ "]"

/-- One mutation or read from the public API; reads leave the state as is
(in the Go code they take only the read lock and write nothing). -/
inductive Op (α β : Type) : Type where
  | opSetFront : α → β → Op α β
  | opSetBack : β → α → Op α β
  | opDeleteFront : α → Op α β
  | opDeleteBack : β → Op α β
  | opGetFront : α → Op α β
  | opGetBack : β → Op α β
  | opLen : Op α β

/-- The state reached after one operation (the error of a rejected `Set` is
returned to the caller; the state is what the receiver holds afterwards). -/
def step (m : BiMap α β) : Op α β → BiMap α β
  | .opSetFront k v => (setFront m k v).1
  | .opSetBack k v => (setBack m k v).1
  | .opDeleteFront k => deleteFront m k
  | .opDeleteBack k => deleteBack m k
  | .opGetFront _ => m
  | .opGetBack _ => m
  | .opLen => m

/-- The state after a sequence of operations on a map created empty. -/
def run (ops : List (Op α β)) : BiMap α β :=
  ops.foldl step (New [])

/-- The two containers of a `BiMap`, exchanged. -/
def swapBM (m : BiMap α β) : BiMap β α :=
  { front := m.back, back := m.front }

/-- Well-formedness that every reachable state enjoys: no duplicate keys on
either side, equal sizes, and the two containers are exact inverses. -/
def Consistent (m : BiMap α β) : Prop :=
  (keys m.front).Nodup ∧ (keys m.back).Nodup ∧
    m.front.length = m.back.length ∧
    ∀ f b, mapLookup m.front f = some b ↔ mapLookup m.back b = some f

/-! ### Basic lemmas about the Go-map model -/

theorem mapLookup_mapInsert (l : List (α × β)) (a : α) (b : β) (a0 : α) :
    mapLookup (mapInsert l a b) a0 = if a0 = a then some b else mapLookup l a0 := by
  induction l with
  | nil => by_cases h : a0 = a <;> simp [mapInsert, mapLookup, h]
  | cons p t ih =>
      obtain ⟨x, y⟩ := p
      by_cases hx : a = x
      · subst hx
        by_cases h0 : a0 = a <;> simp [mapInsert, mapLookup, h0]
      · by_cases h0 : a0 = x
        · subst h0
          have hne : ¬a0 = a := fun h => hx h.symm
          simp [mapInsert, mapLookup, hx, hne]
        · simp [mapInsert, mapLookup, hx, h0, ih]

theorem mapLookup_eq_none_iff (l : List (α × β)) (a : α) :
    mapLookup l a = none ↔ a ∉ keys l := by
  induction l with
  | nil => simp [mapLookup, keys]
  | cons p t ih =>
      obtain ⟨x, y⟩ := p
      by_cases h : a = x <;> simp [mapLookup, keys, h] <;> simpa [keys] using ih

theorem keys_mapInsert (l : List (α × β)) (a : α) (b : β) :
    keys (mapInsert l a b) = if (mapLookup l a).isSome then keys l else keys l ++ [a] := by
  induction l with
  | nil => simp [mapInsert, mapLookup, keys]
  | cons p t ih =>
      obtain ⟨x, y⟩ := p
      by_cases h : a = x
      · subst h; simp [mapInsert, mapLookup, keys]
      · simp [mapInsert, mapLookup, keys, h] at ih ⊢
        by_cases hs : (mapLookup t a).isSome <;> simp [hs] at ih ⊢ <;> simp [ih]

theorem keys_mapInsert_nodup (l : List (α × β)) (a : α) (b : β)
    (h : (keys l).Nodup) : (keys (mapInsert l a b)).Nodup := by
  rw [keys_mapInsert]
  by_cases hs : (mapLookup l a).isSome
  · simpa [hs] using h
  · have ha : a ∉ keys l := by
      have := (mapLookup_eq_none_iff l a).mp (Option.not_isSome_iff_eq_none.mp hs)
      exact this
    simp [hs, List.nodup_append, h, ha]

theorem length_mapInsert (l : List (α × β)) (a : α) (b : β) :
    (mapInsert l a b).length = if (mapLookup l a).isSome then l.length else l.length + 1 := by
  induction l with
  | nil => simp [mapInsert, mapLookup]
  | cons p t ih =>
      obtain ⟨x, y⟩ := p
      by_cases h : a = x
      · subst h; simp [mapInsert, mapLookup]
      · by_cases hs : (mapLookup t a).isSome <;>
          simp [mapInsert, mapLookup, h, hs] at ih ⊢ <;> omega

theorem mapLookup_mapErase_ne (l : List (α × β)) (a a0 : α) (h : a0 ≠ a) :
    mapLookup (mapErase l a) a0 = mapLookup l a0 := by
  induction l with
  | nil => simp [mapErase]
  | cons p t ih =>
      obtain ⟨x, y⟩ := p
      by_cases hx : a = x
      · subst hx; simp [mapErase, mapLookup, h]
      · by_cases h0 : a0 = x <;> simp [mapErase, mapLookup, hx, h0, ih]

theorem mapLookup_mapErase_self (l : List (α × β)) (a : α)
    (h : (keys l).Nodup) : mapLookup (mapErase l a) a = none := by
  induction l with
  | nil => simp [mapErase, mapLookup]
  | cons p t ih =>
      obtain ⟨x, y⟩ := p
      simp only [keys, List.map_cons, List.nodup_cons] at h
      by_cases hx : a = x
      · subst hx
        simp only [mapErase, if_pos rfl]
        exact (mapLookup_eq_none_iff t a).mpr (by simpa [keys] using h.1)
      · simp [mapErase, mapLookup, hx, ih h.2]

theorem keys_mapErase_sublist (l : List (α × β)) (a : α) :
    (keys (mapErase l a)).Sublist (keys l) := by
  induction l with
  | nil => simp [mapErase]
  | cons p t ih =>
      obtain ⟨x, y⟩ := p
      by_cases hx : a = x
      · simpa [mapErase, keys, hx] using List.sublist_cons_self x (keys t)
      · simpa [mapErase, keys, hx] using List.Sublist.cons₂ x ih

theorem keys_mapErase_nodup (l : List (α × β)) (a : α)
    (h : (keys l).Nodup) : (keys (mapErase l a)).Nodup :=
  h.sublist (keys_mapErase_sublist l a)

theorem length_mapErase_of_isSome (l : List (α × β)) (a : α)
    (h : (mapLookup l a).isSome) : (mapErase l a).length + 1 = l.length := by
  induction l with
  | nil => simp [mapLookup] at h
  | cons p t ih =>
      obtain ⟨x, y⟩ := p
      by_cases hx : a = x
      · simp [mapErase, hx]
      · simp only [mapLookup, if_neg hx] at h
        simp [mapErase, mapLookup, hx, ih h]

/-! ### The read pair `(v, ok)` versus the optional lookup -/

theorem getFront_pair_iff [Inhabited β] (m : BiMap α β) (k : α) (v : β) :
    getFront m k = (v, true) ↔ mapLookup m.front k = some v := by
  unfold getFront
  cases h : mapLookup m.front k with
  | none => simp [Prod.ext_iff]
  | some w => simp [Prod.ext_iff]

theorem getBack_pair_iff [Inhabited α] (m : BiMap α β) (k : β) (v : α) :
    getBack m k = (v, true) ↔ mapLookup m.back k = some v := by
  unfold getBack
  cases h : mapLookup m.back k with
  | none => simp [Prod.ext_iff]
  | some w => simp [Prod.ext_iff]

/-! ### The back-side operations are the front-side ones on the swapped map -/

theorem setBack_eq_swap (m : BiMap α β) (k : β) (v : α) :
    setBack m k v = (swapBM (setFront (swapBM m) k v).1, (setFront (swapBM m) k v).2) := by
  unfold setBack setFront swapBM
  by_cases h : (mapLookup m.back k).isSome || (mapLookup m.front v).isSome <;> simp [h]

theorem deleteBack_eq_swap (m : BiMap α β) (k : β) :
    deleteBack m k = swapBM (deleteFront (swapBM m) k) := by
  cases h : mapLookup m.back k <;> simp [deleteBack, deleteFront, swapBM, h]

/-! ### Preservation of `Consistent` by every operation -/

theorem consistent_swapBM (m : BiMap α β) (h : Consistent m) : Consistent (swapBM m) := by
  obtain ⟨h1, h2, h3, h4⟩ := h
  exact ⟨h2, h1, h3.symm, fun b f => (h4 f b).symm⟩

theorem consistent_setFront (m : BiMap α β) (h : Consistent m) (k : α) (v : β) :
    Consistent (setFront m k v).1 := by
  obtain ⟨h1, h2, h3, h4⟩ := h
  unfold setFront
  by_cases hc : (mapLookup m.front k).isSome || (mapLookup m.back v).isSome
  · simpa [hc] using ⟨h1, h2, h3, h4⟩
  · have hf : mapLookup m.front k = none := by
      cases hl : mapLookup m.front k with
      | none => rfl
      | some w => simp [hl] at hc
    have hb : mapLookup m.back v = none := by
      cases hl : mapLookup m.back v with
      | none => rfl
      | some w => simp [hl] at hc
    simp only [if_neg hc]
    refine ⟨keys_mapInsert_nodup _ _ _ h1, keys_mapInsert_nodup _ _ _ h2, ?_, ?_⟩
    · simp [length_mapInsert, hf, hb, h3]
    · intro f b
      rw [mapLookup_mapInsert, mapLookup_mapInsert]
      by_cases hfk : f = k
      · subst hfk
        by_cases hbv : b = v
        · subst hbv; simp
        · simp only [if_pos rfl, if_neg hbv]
          constructor
          · intro he
            exact absurd (Option.some.inj he).symm hbv
          · intro he
            have h5 := (h4 f b).mpr he
            rw [hf] at h5
            simp at h5
      · by_cases hbv : b = v
        · subst hbv
          simp only [if_neg hfk, if_pos rfl]
          constructor
          · intro he
            have h5 := (h4 f b).mp he
            rw [hb] at h5
            simp at h5
          · intro he
            exact absurd (Option.some.inj he).symm hfk
        · simp only [if_neg hfk, if_neg hbv]
          exact h4 f b

theorem consistent_deleteFront (m : BiMap α β) (h : Consistent m) (k : α) :
    Consistent (deleteFront m k) := by
  obtain ⟨h1, h2, h3, h4⟩ := h
  unfold deleteFront
  cases hl : mapLookup m.front k with
  | none => exact ⟨h1, h2, h3, h4⟩
  | some v =>
      have hbv : mapLookup m.back v = some k := (h4 k v).mp hl
      refine ⟨keys_mapErase_nodup _ _ h1, keys_mapErase_nodup _ _ h2, ?_, ?_⟩
      · have e1 := length_mapErase_of_isSome m.front k (by simp [hl])
        have e2 := length_mapErase_of_isSome m.back v (by simp [hbv])
        simp only []
        omega
      · intro f b
        by_cases hfk : f = k
        · subst hfk
          rw [mapLookup_mapErase_self _ _ h1]
          by_cases hb : b = v
          · subst hb
            rw [mapLookup_mapErase_self _ _ h2]
            simp
          · rw [mapLookup_mapErase_ne _ _ _ hb]
            constructor
            · intro he; simp at he
            · intro he
              have hfb := (h4 f b).mpr he
              rw [hl] at hfb
              exact absurd (Option.some.inj hfb).symm hb
        · rw [mapLookup_mapErase_ne _ _ _ hfk]
          by_cases hb : b = v
          · subst hb
            rw [mapLookup_mapErase_self _ _ h2]
            constructor
            · intro he
              have h5 := (h4 f b).mp he
              rw [hbv] at h5
              exact absurd (Option.some.inj h5).symm hfk
            · intro he; simp at he
          · rw [mapLookup_mapErase_ne _ _ _ hb]
            exact h4 f b

theorem consistent_setBack (m : BiMap α β) (h : Consistent m) (k : β) (v : α) :
    Consistent (setBack m k v).1 := by
  rw [setBack_eq_swap]
  exact consistent_swapBM _ (consistent_setFront _ (consistent_swapBM _ h) k v)

theorem consistent_deleteBack (m : BiMap α β) (h : Consistent m) (k : β) :
    Consistent (deleteBack m k) := by
  rw [deleteBack_eq_swap]
  exact consistent_swapBM _ (consistent_deleteFront _ (consistent_swapBM _ h) k)

theorem consistent_New (opts : List (BMOption α β)) : Consistent (New opts) := by
  refine ⟨by simp [keys, New], by simp [keys, New], rfl, ?_⟩
  intro f b
  simp [New, mapLookup]

theorem consistent_step (m : BiMap α β) (h : Consistent m) (op : Op α β) :
    Consistent (step m op) := by
  cases op with
  | opSetFront k v => exact consistent_setFront m h k v
  | opSetBack k v => exact consistent_setBack m h k v
  | opDeleteFront k => exact consistent_deleteFront m h k
  | opDeleteBack k => exact consistent_deleteBack m h k
  | opGetFront k => exact h
  | opGetBack k => exact h
  | opLen => exact h

theorem consistent_foldl (ops : List (Op α β)) (m : BiMap α β) (h : Consistent m) :
    Consistent (ops.foldl step m) := by
  induction ops generalizing m with
  | nil => exact h
  | cons op t ih => exact ih _ (consistent_step m h op)

theorem consistent_run (ops : List (Op α β)) : Consistent (run ops) :=
  consistent_foldl ops _ (consistent_New [])

/-! ### The claims -/

/-- Claim C1: starting from an empty map, after any sequence of public
operations (writes and reads) the two containers are exact inverses as
observed through `getFront` and `getBack`, and `Len` equals the number of
pairs held in each of the two containers. -/
theorem claim1_inverse_consistency [Inhabited α] [Inhabited β] (ops : List (Op α β)) :
    (∀ f b, getFront (run ops) f = (b, true) ↔ getBack (run ops) b = (f, true)) ∧
    lenBM (run ops) = (run ops).front.length ∧
    lenBM (run ops) = (run ops).back.length := by
  obtain ⟨h1, h2, h3, h4⟩ := consistent_run ops
  refine ⟨?_, rfl, by simpa [lenBM] using h3⟩
  intro f b
  rw [getFront_pair_iff, getBack_pair_iff]
  exact h4 f b

/-- Claim C2: `SetFront` returns the collision error exactly when the key is
already in `front` or the value already in `back`; an erroring call leaves
the map unchanged, and a successful call adds the pair to both containers. -/
theorem claim2_setFront_collision (m : BiMap α β) (k : α) (v : β) :
    ((setFront m k v).2 = some BiMapErr.errKeyValExists ↔
        (mapLookup m.front k).isSome ∨ (mapLookup m.back v).isSome) ∧
    ((setFront m k v).2 = some BiMapErr.errKeyValExists → (setFront m k v).1 = m) ∧
    ((setFront m k v).2 = none →
        mapLookup (setFront m k v).1.front k = some v ∧
        mapLookup (setFront m k v).1.back v = some k) := by
  unfold setFront
  by_cases hc : (mapLookup m.front k).isSome || (mapLookup m.back v).isSome
  · rw [if_pos hc]
    refine ⟨?_, fun _ => rfl, fun he => by simp at he⟩
    simpa using hc
  · rw [if_neg hc]
    refine ⟨?_, fun he => by simp at he, fun _ => ?_⟩
    · constructor
      · intro he; simp at he
      · intro hd; exact absurd (by simpa using hd) hc
    · constructor <;> simp [mapLookup_mapInsert]

/-- Witness for C2 at a concrete collision: re-using key 1 errors and leaves
the map as it was. -/
theorem claim2_setFront_collision_witness :
    (setFront ({ front := [(1, 2)], back := [(2, 1)] } : BiMap Nat Nat) 1 3).1 =
      { front := [(1, 2)], back := [(2, 1)] } :=
  (claim2_setFront_collision { front := [(1, 2)], back := [(2, 1)] } 1 3).2.1 (by decide)

/-- Claim C4: re-inserting a pair already present is rejected with
`ErrKeyValExists` and the map is unchanged; there is no idempotent success
path. -/
theorem claim4_identical_pair_rejected [Inhabited β] (m : BiMap α β) (k : α) (v : β)
    (h : getFront m k = (v, true)) :
    (setFront m k v).2 = some BiMapErr.errKeyValExists ∧ (setFront m k v).1 = m := by
  have hl : mapLookup m.front k = some v := (getFront_pair_iff m k v).mp h
  have hc : ((mapLookup m.front k).isSome || (mapLookup m.back v).isSome) = true := by
    simp [hl]
  unfold setFront
  rw [if_pos hc]
  exact ⟨rfl, rfl⟩

/-- Witness for C4: the map holding exactly (1, 2) rejects a second
`SetFront 1 2` and is unchanged. -/
theorem claim4_identical_pair_rejected_witness :
    (setFront ({ front := [(1, 2)], back := [(2, 1)] } : BiMap Nat Nat) 1 2).2 =
        some BiMapErr.errKeyValExists ∧
    (setFront ({ front := [(1, 2)], back := [(2, 1)] } : BiMap Nat Nat) 1 2).1 =
      { front := [(1, 2)], back := [(2, 1)] } :=
  claim4_identical_pair_rejected { front := [(1, 2)], back := [(2, 1)] } 1 2 (by decide)

/-- Claim C5: a successful `SetFront k v` is immediately observable in both
directions: `GetFront k` yields `(v, true)` and `GetBack v` yields
`(k, true)`. -/
theorem claim5_insert_then_get [Inhabited α] [Inhabited β] (m : BiMap α β) (k : α) (v : β)
    (h : (setFront m k v).2 = none) :
    getFront (setFront m k v).1 k = (v, true) ∧ getBack (setFront m k v).1 v = (k, true) := by
  unfold setFront at h ⊢
  by_cases hc : (mapLookup m.front k).isSome || (mapLookup m.back v).isSome
  · rw [if_pos hc] at h
    simp at h
  · rw [if_neg hc]
    constructor
    · rw [getFront_pair_iff]
      simp [mapLookup_mapInsert]
    · rw [getBack_pair_iff]
      simp [mapLookup_mapInsert]

/-- Witness for C5: inserting (1, 2) into the empty map succeeds and is seen
by both reads. -/
theorem claim5_insert_then_get_witness :
    getFront (setFront (New ([] : List (BMOption Nat Nat))) 1 2).1 1 = (2, true) ∧
    getBack (setFront (New ([] : List (BMOption Nat Nat))) 1 2).1 2 = (1, true) :=
  claim5_insert_then_get (New []) 1 2 (by decide)

/-- Claim C3 fails on the code: `New` declares its variadic options parameter
without a name and never applies it, so a map created with
`WithInitialMap [(1, 2)]` is empty and `GetFront 1` reports absence instead
of `(2, true)` — even though `initialOption.apply` (embedded as
`applyOption`) would have seeded both containers had it been called. -/
theorem claim3_new_ignores_initial_map :
    getFront (New [WithInitialMap [((1 : Nat), (2 : Nat))]]) 1 = (0, false) ∧
    New [WithInitialMap [((1 : Nat), (2 : Nat))]] = { front := [], back := [] } ∧
    getFront (applyOption (New []) (WithInitialMap [((1 : Nat), (2 : Nat))])) 1 = (2, true) := by
  refine ⟨?_, rfl, ?_⟩ <;> rfl

/-- Claim C6: with duplicate-free containers, deleting a present key removes
the pair from both sides, and deleting an absent key leaves the map exactly
as it was (and the operation returns nothing, so there is no error). -/
theorem claim6_deleteFront [Inhabited α] [Inhabited β] (m : BiMap α β) (k : α)
    (hf : (keys m.front).Nodup) (hb : (keys m.back).Nodup) :
    (∀ v, getFront m k = (v, true) →
        (getFront (deleteFront m k) k).2 = false ∧
        (getBack (deleteFront m k) v).2 = false) ∧
    ((getFront m k).2 = false → deleteFront m k = m) := by
  constructor
  · intro v hv
    have hl : mapLookup m.front k = some v := (getFront_pair_iff m k v).mp hv
    unfold deleteFront
    rw [hl]
    constructor
    · simp [getFront, mapLookup_mapErase_self _ _ hf]
    · simp [getBack, mapLookup_mapErase_self _ _ hb]
  · intro h2
    unfold deleteFront
    cases hl : mapLookup m.front k with
    | none => rfl
    | some w =>
        unfold getFront at h2
        rw [hl] at h2
        simp at h2

/-- Witness for C6: deleting key 1 from the map holding exactly (1, 2) makes
both reads report absence. -/
theorem claim6_deleteFront_witness :
    (getFront (deleteFront ({ front := [(1, 2)], back := [(2, 1)] } : BiMap Nat Nat) 1) 1).2 =
        false ∧
    (getBack (deleteFront ({ front := [(1, 2)], back := [(2, 1)] } : BiMap Nat Nat) 1) 2).2 =
      false :=
  (claim6_deleteFront { front := [(1, 2)], back := [(2, 1)] } 1 (by decide) (by decide)).1
    2 (by decide)

theorem mapLookup_foldl_mapInsert (l : List (α × β)) (h : (keys l).Nodup)
    (acc : List (α × β)) (a : α) :
    mapLookup (l.foldl (fun nm p => mapInsert nm p.1 p.2) acc) a =
      if a ∈ keys l then mapLookup l a else mapLookup acc a := by
  induction l generalizing acc with
  | nil => simp [keys]
  | cons p t ih =>
      obtain ⟨x, y⟩ := p
      simp only [keys, List.map_cons, List.nodup_cons] at h
      simp only [List.foldl_cons]
      rw [ih h.2]
      by_cases hax : a = x
      · subst hax
        have hat : a ∉ keys t := by simpa [keys] using h.1
        rw [if_neg hat]
        simp [keys, mapLookup, mapLookup_mapInsert]
      · by_cases hat : a ∈ List.map Prod.fst t <;>
          simp [keys, mapLookup, mapLookup_mapInsert, hax, hat]

/-- Claim C7: `Front` returns a copy holding exactly the pairs of the forward
container; writing a binding into the copy changes only the copy — the live
container keeps all its entries, so every other key of the copy still agrees
with it and later `getFront` reads are computed from the untouched live
side. -/
theorem claim7_front_snapshot (m : BiMap α β) (h : (keys m.front).Nodup) :
    (∀ k, mapLookup (Front m) k = mapLookup m.front k) ∧
    (∀ k v, mapLookup (mapInsert (Front m) k v) k = some v) ∧
    (∀ k v k0, k0 ≠ k → mapLookup (mapInsert (Front m) k v) k0 = mapLookup m.front k0) := by
  have hc : ∀ k, mapLookup (Front m) k = mapLookup m.front k := by
    intro k
    unfold Front
    rw [mapLookup_foldl_mapInsert _ h]
    by_cases hk : k ∈ keys m.front
    · rw [if_pos hk]
    · rw [if_neg hk, (mapLookup_eq_none_iff m.front k).mpr hk]
      rfl
  refine ⟨hc, ?_, ?_⟩
  · intro k v
    rw [mapLookup_mapInsert]
    simp
  · intro k v k0 hne
    rw [mapLookup_mapInsert, if_neg hne, hc k0]

/-- Witness for C7: the copy of a one-pair map can be overwritten at key 1
while the live container still holds (1, 2). -/
theorem claim7_front_snapshot_witness :
    mapLookup (mapInsert (Front ({ front := [(1, 2)], back := [(2, 1)] } : BiMap Nat Nat)) 1 9)
        1 = some 9 :=
  (claim7_front_snapshot { front := [(1, 2)], back := [(2, 1)] } (by decide)).2.1 1 9

theorem foldl_append_singleton {γ : Type} (f : α × β → γ) (l : List (α × β)) (acc : List γ) :
    l.foldl (fun ps p => ps ++ [f p]) acc = acc ++ l.map f := by
  induction l generalizing acc with
  | nil => simp
  | cons p t ih => simp [ih]

/-- Claim C8: `String` renders the forward pairs as colon-joined tokens,
space-separated in iteration order (some permutation of the container),
wrapped in `map[`…`]`; the empty map renders as `map[]`. -/
theorem claim8_string_format [ToString α] [ToString β] (m : BiMap α β) :
    (∃ l : List (α × β), l.Perm m.front ∧
        stringBM m = "map[" ++ String.intercalate " " (l.map renderPair) ++ "]") ∧
    stringBM (New ([] : List (BMOption α β))) = "map[]" := by
  constructor
  · refine ⟨m.front, List.Perm.refl _, ?_⟩
    unfold stringBM
    rw [foldl_append_singleton renderPair]
    simp
  · rfl

/-- Claim C9: looking a key up on the side where it is absent returns the
value type's zero value together with `false`, and a read step leaves the
map state exactly as it was. -/
theorem claim9_absent_lookup [Inhabited α] [Inhabited β] (m : BiMap α β) (kf : α) (kb : β)
    (hf : mapLookup m.front kf = none) (hb : mapLookup m.back kb = none) :
    getFront m kf = (default, false) ∧ getBack m kb = (default, false) ∧
    step m (Op.opGetFront kf) = m ∧ step m (Op.opGetBack kb) = m := by
  unfold getFront getBack
  rw [hf, hb]
  exact ⟨rfl, rfl, rfl, rfl⟩

/-- Witness for C9: key 5 is absent from the empty map on both sides. -/
theorem claim9_absent_lookup_witness :
    getFront (New ([] : List (BMOption Nat Nat))) 5 = (0, false) ∧
    getBack (New ([] : List (BMOption Nat Nat))) 5 = (0, false) ∧
    step (New ([] : List (BMOption Nat Nat))) (Op.opGetFront 5) = New [] ∧
    step (New ([] : List (BMOption Nat Nat))) (Op.opGetBack 5) = New [] :=
  claim9_absent_lookup (New []) 5 5 (by decide) (by decide)

/-- Claim C10: deleting a present pair (k, v) touches nothing else: front
reads at keys other than k and back reads at values other than v are exactly
as before the deletion. -/
theorem claim10_deleteFront_frame [Inhabited α] [Inhabited β] (m : BiMap α β) (k : α) (v : β)
    (h : getFront m k = (v, true)) :
    (∀ f, f ≠ k → getFront (deleteFront m k) f = getFront m f) ∧
    (∀ b, b ≠ v → getBack (deleteFront m k) b = getBack m b) := by
  have hl : mapLookup m.front k = some v := (getFront_pair_iff m k v).mp h
  unfold deleteFront
  rw [hl]
  constructor
  · intro f hfk
    simp only [getFront]
    rw [mapLookup_mapErase_ne _ _ _ hfk]
  · intro b hbv
    simp only [getBack]
    rw [mapLookup_mapErase_ne _ _ _ hbv]

/-- Witness for C10: deleting key 1 from a two-pair map leaves the reads of
the other pair (3, 4) untouched. -/
theorem claim10_deleteFront_frame_witness :
    getFront
        (deleteFront ({ front := [(1, 2), (3, 4)], back := [(2, 1), (4, 3)] } : BiMap Nat Nat) 1)
        3 =
      getFront ({ front := [(1, 2), (3, 4)], back := [(2, 1), (4, 3)] } : BiMap Nat Nat) 3 :=
  (claim10_deleteFront_frame { front := [(1, 2), (3, 4)], back := [(2, 1), (4, 3)] } 1 2
      (by decide)).1 3 (by decide)

end BiMapSpec
